import Mathlib

/- Shallow embedding of the y-crdt (yrs) document-store core, translated from:
   - src/yrs/src/store.rs        (Store, StoreEvents, update codec entry points)
   - src/yrs/src/types/mod.rs    (Branch, iterators, events)
   - src/yrs/src/utils/client_hasher.rs (ClientHasher)
   Machine integers (u64) are modelled as Nat: the quantities involved (clocks,
   lengths, client ids) never overflow in the algorithms under study, except
   where the source itself can underflow, which is modelled explicitly. -/

namespace Yrs

/-- Modelled from the spec: `StateVector` is a mapping client -> next-clock
(source type lives in a file outside src/). Embedded as an association list
with pairwise-distinct client keys, mirroring the source's HashMap. -/
abbrev StateVector := List (Nat × Nat)

/-- Modelled from the spec: `StateVector::get` returns the next clock of a
client, defaulting to 0 for clients the vector has not seen. -/
def svGet (sv : StateVector) (c : Nat) : Nat :=
  match sv.lookup c with
  | some k => k
  | none => 0

/-- Modelled from the spec: `StateVector::contains_client` membership test. -/
def svContains (sv : StateVector) (c : Nat) : Bool :=
  (sv.lookup c).isSome

/-- Well-formedness of an association-list state vector: client keys are
pairwise distinct (always true of the source's HashMap representation). -/
def svWF (sv : StateVector) : Prop := (sv.map Prod.fst).Nodup

instance (sv : StateVector) : Decidable (svWF sv) :=
  inferInstanceAs (Decidable ((sv.map Prod.fst).Nodup))

/-- Extensional equality of two state vectors as partial maps. This mirrors the
HashMap `PartialEq` used by the source in `txn.after_state != txn.before_state`:
two maps are equal when they hold exactly the same (client, clock) entries. -/
def svEqB (a b : StateVector) : Bool :=
  a.all (fun e => b.lookup e.1 == some e.2) && b.all (fun e => a.lookup e.1 == some e.2)

/-- Modelled from the spec: a `DeleteSet` maps each client to an ordered list
of `(clock_start, length)` ranges of tombstoned clocks. -/
abbrev DeleteSet := List (Nat × List (Nat × Nat))

/-- Modelled from the spec: `DeleteSet::is_empty` - the per-client map holds no
entry. -/
def dsIsEmpty (ds : DeleteSet) : Bool := ds.isEmpty

/-- Stable insertion step: place `x` before the first element `y` with
`le x y`. Used to model Rust's stable `sort_by`. -/
def insertBy {α : Type} (le : α → α → Bool) (x : α) : List α → List α
  | [] => [x]
  | y :: ys => if le x y then x :: y :: ys else y :: insertBy le x ys

/-- Stable insertion sort modelling Rust's stable `Vec::sort_by` with
comparator `le` (an element `x` goes before `y` exactly when `le x y`). -/
def stableSortBy {α : Type} (le : α → α → Bool) : List α → List α
  | [] => []
  | x :: xs => insertBy le x (stableSortBy le xs)

/- ===== store.rs: StoreEvents (update_v1 / update_v2 emission) ===== -/

/-- Portion of `TransactionMut` state consulted by `StoreEvents::emit_update_*`:
the state vector snapshot taken at transaction open (`before_state`), the one
computed at commit (`after_state`), and the deletions performed
(`delete_set`). -/
structure TransactionMut where
  before_state : StateVector
  after_state : StateVector
  delete_set : DeleteSet

/-- Translation of `StoreEvents::emit_update_v1` (store.rs:504-512). Returns
whether the registered callbacks were triggered. `hasCallbacks` models
`self.update_v1_events.callbacks()` returning `Some` (at least one callback
registered); the inner condition is the source's
`!txn.delete_set.is_empty() || txn.after_state != txn.before_state`. -/
def emit_update_v1 (hasCallbacks : Bool) (txn : TransactionMut) : Bool :=
  if hasCallbacks then
    if !(dsIsEmpty txn.delete_set) || !(svEqB txn.after_state txn.before_state) then
      true
    else
      false
  else false

/-- Translation of `StoreEvents::emit_update_v2` (store.rs:527-535); the guard
is identical to the v1 variant. -/
def emit_update_v2 (hasCallbacks : Bool) (txn : TransactionMut) : Bool :=
  if hasCallbacks then
    if !(dsIsEmpty txn.delete_set) || !(svEqB txn.after_state txn.before_state) then
      true
    else
      false
  else false

/- ===== utils/client_hasher.rs: ClientHasher ===== -/

/-- State of `ClientHasher` (client_hasher.rs:8-11). The source field is named
`prefix`; it starts at 0 and holds the single u64 written into the hasher. -/
structure ClientHasher where
  pref : Nat
deriving DecidableEq

/-- Translation of `u64::from_ne_bytes` on an 8-byte slice, fixed here to
little-endian byte order (the identity round-trip with `to_ne_bytes` that the
hasher relies on is endianness-independent). -/
def u64_from_ne_bytes (bytes : List Nat) : Nat :=
  bytes.foldr (fun b acc => b + 256 * acc) 0

/-- Translation of `Hasher::write` for `ClientHasher` (client_hasher.rs:19-25)
with debug assertions active. `none` models a failed `debug_assert!` or a
panicking `unwrap()`:
- `debug_assert!(bytes.len() == 16)`;
- `debug_assert!(self.prefix == 0)` (only a single value may be written);
- `<[u8; 8]>::try_from(bytes).unwrap()` requires exactly 8 bytes. -/
def ClientHasher.write (h : ClientHasher) (bytes : List Nat) : Option ClientHasher :=
  if bytes.length = 16 then
    if h.pref = 0 then
      if bytes.length = 8 then
        some { pref := u64_from_ne_bytes bytes }
      else none
    else none
  else none

/-- Translation of `Hasher::write` for `ClientHasher` as compiled in release
mode, where `debug_assert!` is compiled out and only the
`<[u8; 8]>::try_from(bytes).unwrap()` conversion can fail. -/
def ClientHasher.write_release (_h : ClientHasher) (bytes : List Nat) : Option ClientHasher :=
  if bytes.length = 8 then
    some { pref := u64_from_ne_bytes bytes }
  else none

/-- Translation of `Hasher::finish` for `ClientHasher` (client_hasher.rs:15-17). -/
def ClientHasher.finish (h : ClientHasher) : Nat := h.pref

/- ===== types/mod.rs: paths and commit-time event ordering ===== -/

/-- A single segment of a `Path` (types/mod.rs:1167-1174): either a map key or
a sequence index. -/
inductive PathSegment
  | key (k : String)
  | index (i : Nat)
deriving DecidableEq

/-- A path from a root type to a nested branch (types/mod.rs:1163). -/
abbrev Path := List PathSegment

/-- An event assembled at commit time for observers. The source `Event` enum
carries a branch whose `path()` is computed on demand; here the path is carried
directly and `target` abstracts the event payload identity. -/
structure Event where
  target : Nat
  path : Path
deriving DecidableEq

/-- Translation of `Events::new` (types/mod.rs:1456-1467): the collected events
are sorted with the stable `sort_by` comparator `path1.len().cmp(&path2.len())`,
that is, ascending by path length. -/
def Events.new (events : List Event) : List Event :=
  stableSortBy (fun a b => a.path.length ≤ b.path.length) events

/- ===== block/types model: items in a branch sequence ===== -/

/-- A live block (Item) as consulted by the branch algorithms under study:
its id `(client, clock)`, its content length, the `deleted` and `countable`
info flags, and an abstract content payload tag. An item covers clocks
`[clock, clock + len)`. The branch's sequence component is embedded as the
list of items reached by following `right` pointers from `start`; an
`Option ItemPtr` into that chain corresponds to a suffix of the list. -/
structure Item where
  client : Nat
  clock : Nat
  len : Nat
  deleted : Bool
  countable : Bool
  content : Nat
deriving DecidableEq

/-- Source predicate `!item.is_deleted() && item.is_countable()` guarding every
countable-length scan in types/mod.rs. -/
def liveCountable (it : Item) : Bool := !it.deleted && it.countable

/-- Sum of the lengths of the non-deleted countable items of a sequence, the
quantity the branch maintains as `block_len`. -/
def totalLiveLen (items : List Item) : Nat :=
  items.foldr (fun it n => if liveCountable it then it.len + n else n) 0

/-- Translation of `Entries::next` (types/mod.rs:1084-1091): take the next map
entry, then keep advancing while the entry's item is deleted. Returns the
yielded entry and the iterator's remaining entries. -/
def entriesNext : List (String × Item) → Option ((String × Item) × List (String × Item))
  | [] => none
  | e :: rest => if e.2.deleted then entriesNext rest else some (e, rest)

/-- Exhaustion of the `Entries` iterator: the list of all entries yielded by
repeatedly calling `Entries::next`. -/
def entriesAll : List (String × Item) → List (String × Item)
  | [] => []
  | e :: rest => if e.2.deleted then entriesAll rest else e :: entriesAll rest

/-- Translation of `Iter::next` (types/mod.rs:1107-1111): take the current
item, advance the pointer to `item.right`, and yield the item - with no check
of the deleted flag. -/
def iterNext : List Item → Option (Item × List Item)
  | [] => none
  | i :: rest => some (i, rest)

/-- Exhaustion of the `Iter` iterator: the list of all items yielded by
repeatedly calling `Iter::next`. -/
def iterAll : List Item → List Item
  | [] => []
  | i :: rest => i :: iterAll rest

/-- Translation of `Branch::get_at` (types/mod.rs:504-519): walk the sequence
from `start`; at each non-deleted countable item, return `(content, index)`
when `index < len`, otherwise subtract `len`; skip other items. -/
def get_at : List Item → Nat → Option (Nat × Nat)
  | [], _ => none
  | item :: rest, index =>
    if !item.deleted && item.countable then
      if index < item.len then some (item.content, index)
      else get_at rest (index - item.len)
    else get_at rest index

/-- Helper for the claim-side reading of `get_at`, carrying the cumulative
length `acc` of the live countable items already scanned. -/
def getAtSpecAux : List Item → Nat → Nat → Option (Nat × Nat)
  | [], _, _ => none
  | item :: rest, i, acc =>
    if liveCountable item then
      if acc ≤ i ∧ i < acc + item.len then some (item.content, i - acc)
      else getAtSpecAux rest i (acc + item.len)
    else getAtSpecAux rest i acc

/-- Claim-side definition of `get_at`, written from the specification's words:
scan start-to-right skipping deleted and non-countable items and return the
first item whose cumulative countable range contains `i`, with offset `i`
minus the lengths of the preceding live countable items. -/
def get_at_by_spec (items : List Item) (i : Nat) : Option (Nat × Nat) :=
  getAtSpecAux items i 0

/-- Left half of splitting an item at internal offset `o`: the original item
truncated to length `o` (spec 4.1, `split_block`). -/
def splitLeft (it : Item) (o : Nat) : Item := { it with len := o }

/-- Right half of splitting an item at internal offset `o`: a fresh item with
id `(client, clock + o)` carrying the content suffix (spec 4.1,
`split_block`). -/
def splitRight (it : Item) (o : Nat) : Item :=
  { it with clock := it.clock + o, len := it.len - o }

/-- Translation of `Branch::index_to_ptr` (types/mod.rs:559-593). Returns the
left anchor item and the right chain (as the remaining list suffix). The
source returns `(None, None)` when the index runs past the end of the
sequence; that failure case is `(none, [])` here. Each item's
`content_len(encoding)` is modelled by its single `len` field (the
`offset_kind` encodings only rescale text lengths and are not distinguished
by the claims under study). The `moved`/`prev_moved` bookkeeping on the split
branch is not consulted by any property below and is omitted. -/
def index_to_ptr : List Item → Nat → (Option Item × List Item)
  | [], _ => (none, [])
  | item :: rest, index =>
    if !item.deleted && item.countable then
      if index = item.len then (some item, rest)
      else if index < item.len then
        (some (splitLeft item index), splitRight item index :: rest)
      else index_to_ptr rest (index - item.len)
    else index_to_ptr rest index

/-- Translation of `Branch::insert_at` (types/mod.rs:644-671) up to the anchor
computation handed to `txn.create_item`. `none` models the source's
`panic!("Cannot insert item at index over the length of an array")`, raised
before any item is created. For `index == 0` the source anchors at
`(None, None)`, the head of the sequence: in this list embedding the right
chain at the head is the whole item list. -/
def insert_at (items : List Item) (block_len : Nat) (index : Nat) :
    Option (Option Item × List Item) :=
  if index ≤ block_len then
    some (if index = 0 then (none, items) else index_to_ptr items index)
  else none

/- ===== block store and the update codec entry points of store.rs ===== -/

/-- A block cell of a per-client sequence as consulted by the encoders: it
covers clocks `[clock, clock + len)`; the carried content is irrelevant to the
properties under study and is abstracted away. -/
structure Blk where
  clock : Nat
  len : Nat
deriving DecidableEq

/-- A slice view over a block (the source's `ItemSlice`), identified by the
absolute clock range `[lo, hi)` it covers. The source stores a block pointer
plus inclusive start/end offsets; `lo = id.clock + start` and
`hi = id.clock + end + 1`. -/
structure Slice where
  lo : Nat
  hi : Nat
deriving DecidableEq

/-- View of a whole block as a slice (`Block::as_slice`). -/
def Blk.asSlice (b : Blk) : Slice := ⟨b.clock, b.clock + b.len⟩

/-- Translation of `ItemSlice::trim_start(offset)`: drop `offset` clocks from
the front of the slice. -/
def Slice.trimStart (s : Slice) (off : Nat) : Slice := ⟨s.lo + off, s.hi⟩

/-- Translation of `ItemSlice::trim_end(k)`: drop `k` clocks from the end of
the slice. -/
def Slice.trimEnd (s : Slice) (k : Nat) : Slice := ⟨s.lo, s.hi - k⟩

/-- Translation of `ItemSlice::clock_end()`: the inclusive last clock covered
by the slice. -/
def Slice.clockEndIncl (s : Slice) : Nat := s.hi - 1

/-- Modelled from the spec: a per-client sequence is an ordered vector of
block cells covering clocks gaplessly; `startsAt bs n` states that `bs`
covers `[n, ...)` contiguously with non-empty cells. -/
def startsAt : List Blk → Nat → Bool
  | [], _ => true
  | b :: rest, n => b.clock == n && 0 < b.len && startsAt rest (n + b.len)

/-- Modelled from the spec: `ClientBlockList::clock()` - the next clock after
the last cell of a per-client sequence (0 when empty). -/
def clockOf (bs : List Blk) : Nat :=
  match bs.getLast? with
  | some b => b.clock + b.len
  | none => 0

/-- Modelled from the spec: `ClientBlockList::find_pivot(clock)` - a binary
search locating the index of the cell `C` with
`C.clock_start <= clock < C.clock_end`. On a gapless sorted sequence starting
at 0 this is the first cell whose end exceeds `clock`. -/
def find_pivot (bs : List Blk) (clock : Nat) : Option Nat :=
  match bs with
  | [] => none
  | b :: rest =>
    if clock < b.clock + b.len then some 0
    else (find_pivot rest clock).map (· + 1)

/-- Modelled from the spec: the `BlockStore` maps each client to its per-client
sequence; embedded as an association list with distinct client keys. -/
abbrev BlockStore := List (Nat × List Blk)

/-- Modelled from the spec: `BlockStore::get_client`. -/
def getClient (store : BlockStore) (c : Nat) : Option (List Blk) :=
  store.lookup c

/-- Modelled from the spec: `BlockStore::get_state_vector` maps each client to
the next clock of its sequence. -/
def getStateVector (store : BlockStore) : StateVector :=
  store.map (fun e => (e.1, clockOf e.2))

/-- Well-formedness of a block store: distinct clients, and every per-client
sequence non-empty and gapless from clock 0 (spec 3, per-client sequence
invariant). -/
def blockStoreWF (store : BlockStore) : Prop :=
  (store.map Prod.fst).Nodup ∧ ∀ e ∈ store, e.2 ≠ [] ∧ startsAt e.2 0 = true

instance (store : BlockStore) : Decidable (blockStoreWF store) :=
  inferInstanceAs
    (Decidable ((store.map Prod.fst).Nodup ∧ ∀ e ∈ store, e.2 ≠ [] ∧ startsAt e.2 0 = true))

/-- Translation of `Store::diff_state_vectors` (store.rs:221-235): push
`(client, remote_clock)` for every remote entry whose local clock is greater,
then push `(client, 0)` for every local entry whose remote clock reads 0. -/
def diff_state_vectors (local_sv remote_sv : StateVector) : List (Nat × Nat) :=
  (remote_sv.filterMap (fun e =>
    if svGet local_sv e.1 > e.2 then some (e.1, e.2) else none))
  ++ (local_sv.filterMap (fun e =>
    if svGet remote_sv e.1 = 0 then some (e.1, 0) else none))

/-- One per-client section of the encoded block stream. The byte-level encoder
is abstracted structurally: `count` is the value of the leading
`write_var(number of structs)`, `client` and `clock` the next two fields, and
`slices` the block slices encoded in order. -/
structure Sect where
  count : Nat
  client : Nat
  clock : Nat
  slices : List Slice
deriving DecidableEq

/-- Body of the per-client loop of `Store::write_blocks_from`
(store.rs:201-218): clamp the requested clock to the first existing id, locate
the pivot cell, then emit the pivot slice trimmed at the front followed by all
later cells. `none` models a panicking `unwrap()`. -/
def writeClientFrom (store : BlockStore) (e : Nat × Nat) : Option Sect :=
  match getClient store e.1 with
  | none => none
  | some blocks =>
    let clock := max e.2 (((blocks.get? 0).map Blk.clock).getD 0)
    match find_pivot blocks clock with
    | none => none
    | some start =>
      match blocks.get? start with
      | none => none
      | some first_block =>
        let offset := clock - first_block.clock
        some { count := blocks.length - start
               client := e.1
               clock := clock
               slices := (first_block.asSlice.trimStart offset)
                         :: ((blocks.drop (start + 1)).map Blk.asSlice) }

/-- Sequencing of the per-client loop: all sections in diff order, failing as
a whole if any entry panics. -/
def sectionsFrom (store : BlockStore) : List (Nat × Nat) → Option (List Sect)
  | [] => some []
  | e :: rest =>
    match writeClientFrom store e, sectionsFrom store rest with
    | some s, some l => some (s :: l)
    | _, _ => none

/-- Translation of `Store::write_blocks_from` (store.rs:192-219): diff the
local state vector against the remote one, sort the diff so higher client ids
come first (`diff.sort_by(|a, b| b.0.cmp(&a.0))`), and emit one section per
diff entry. -/
def write_blocks_from (store : BlockStore) (sv : StateVector) : Option (List Sect) :=
  let diff := diff_state_vectors (getStateVector store) sv
  sectionsFrom store (stableSortBy (fun a b => b.1 ≤ a.1) diff)

/-- Body of the per-client loop of `Store::write_blocks_to` (store.rs:154-171):
clamp the snapshot clock, locate the cell containing `clock - 1`, then emit all
earlier cells whole followed by that cell trimmed at the end so that its last
covered clock is `clock - 1`. When `clock = 0` the source's `clock - 1`
underflows u64 (a panic in debug builds; in release the resulting pivot lookup
fails its `unwrap()`), modelled as `none`. -/
def writeClientTo (store : BlockStore) (e : Nat × Nat) : Option Sect :=
  match getClient store e.1 with
  | none => none
  | some blocks =>
    let clock := min e.2 (clockOf blocks + 1)
    if clock = 0 then none
    else
      match find_pivot blocks (clock - 1) with
      | none => none
      | some last_idx =>
        match blocks.get? last_idx with
        | none => none
        | some last_block =>
          let slice := last_block.asSlice
          some { count := last_idx + 1
                 client := e.1
                 clock := 0
                 slices := ((blocks.take last_idx).map Blk.asSlice)
                           ++ [slice.trimEnd (slice.clockEndIncl - (clock - 1))] }

/-- Sequencing of the per-client loop of the snapshot writer. -/
def sectionsTo (store : BlockStore) : List (Nat × Nat) → Option (List Sect)
  | [] => some []
  | e :: rest =>
    match writeClientTo store e, sectionsTo store rest with
    | some s, some l => some (s :: l)
    | _, _ => none

/-- Translation of `Store::write_blocks_to` (store.rs:141-172): keep the
snapshot's entries for locally known clients clamped to the local clock, sort
them so higher client ids come first, and emit one clipped section per
entry. -/
def write_blocks_to (store : BlockStore) (sv : StateVector) : Option (List Sect) :=
  let local_sv := getStateVector store
  let diff := sv.filterMap (fun e =>
    if svContains local_sv e.1 then some (e.1, min e.2 (svGet local_sv e.1)) else none)
  sectionsTo store (stableSortBy (fun a b => b.1 ≤ a.1) diff)

/- ===== store.rs: get_or_create_type ===== -/

/-- Branch container kinds (types/mod.rs:68-80); the `weak` feature variant is
compiled out in the source's default configuration. -/
inductive TypeRef
  | array
  | map
  | text
  | xmlElement (tag : String)
  | xmlFragment
  | xmlHook
  | xmlText
  | subDoc
  | undefined
deriving DecidableEq

/-- The part of a `Branch` node consulted by `get_or_create_type`: its
`type_ref` and its root name. The `name` field lives on the source's
`crate::branch::Branch` (a module outside src/), written by store.rs:117;
it is modelled here from that usage. -/
structure Branch where
  type_ref : TypeRef
  name : Option String
deriving DecidableEq

/-- Translation of `Branch::repair_type_ref` (types/mod.rs:460-464): the
type_ref is replaced only when the current one is `Undefined`. -/
def Branch.repair_type_ref (b : Branch) (t : TypeRef) : Branch :=
  if b.type_ref = TypeRef.undefined then { b with type_ref := t } else b

/-- Store creation options (the `Options` record, consulted via
`self.options.skip_gc` in store.rs:132). -/
structure Options where
  client_id : Nat
  skip_gc : Bool

/-- The parts of `Store` (store.rs:27-62) consulted by the claims: `options`,
the root-type map `types`, the `node_registry` of alive branches, and the
block store `blocks`. Branch pointer identity is modelled as an arena: `arena`
maps a numeric branch id to the branch value and `next_id` is the allocation
counter, so that "same pointer" is "same id" and "no new branch" is "arena
domain and `next_id` unchanged". -/
structure Store where
  options : Options
  types : List (String × Nat)
  arena : List (Nat × Branch)
  node_registry : List Nat
  next_id : Nat
  blocks : BlockStore

/-- Translation of `Store::get_or_create_type` (store.rs:102-123): on an
occupied entry, repair the existing branch's type_ref in place and return its
pointer; on a vacant entry, allocate a fresh branch carrying the requested
type_ref and the key as its name, register it, and insert it into the root
type map. -/
def get_or_create_type (s : Store) (key : String) (t : TypeRef) : Nat × Store :=
  match s.types.lookup key with
  | some bid =>
      (bid,
       { s with
         arena := s.arena.map (fun e =>
           if e.1 = bid then (e.1, e.2.repair_type_ref t) else e) })
  | none =>
      let bid := s.next_id
      let branch : Branch := { type_ref := t, name := some key }
      (bid,
       { s with
         types := s.types ++ [(key, bid)]
         arena := s.arena ++ [(bid, branch)]
         node_registry := s.node_registry ++ [bid]
         next_id := bid + 1 })

/-- Dereference of a branch pointer's type_ref in the arena model. -/
def typeRefAt (s : Store) (bid : Nat) : Option TypeRef :=
  (s.arena.lookup bid).map Branch.type_ref

/-- Domain of the branch arena: the ids of all allocated branches. -/
def arenaIds (s : Store) : List Nat := s.arena.map Prod.fst

/- ===== store.rs: encode_state_from_snapshot ===== -/

/-- Error kinds reachable from `encode_state_from_snapshot`; `gc` is the
source's `Error::Gc` (surfaced as `GCRequired`). -/
inductive Error
  | gc
deriving DecidableEq

/-- A snapshot names a historical document state: a state map plus the delete
set observed at that point (spec 3 and store.rs:125-139 usage). -/
structure Snapshot where
  state_map : StateVector
  delete_set : DeleteSet

/-- Tokens written to the encoder by the snapshot path, abstracted
structurally: the block sections and the trailing encoded delete set. -/
inductive Tok
  | sect (s : Sect)
  | ds (d : DeleteSet)
deriving DecidableEq

/-- Translation of `Store::encode_state_from_snapshot` (store.rs:127-139).
The encoder is threaded explicitly as the token list `enc` so that "nothing
was written" is observable. The source returns `Err(Error::Gc)` before
touching the encoder when `skip_gc` is false; otherwise it writes the clipped
block sections and then the snapshot's delete set. The outer `Option` models
the panics inside `write_blocks_to` (see `writeClientTo`). -/
def encode_state_from_snapshot (s : Store) (snap : Snapshot) (enc : List Tok) :
    Option (Except Error Unit × List Tok) :=
  if !s.options.skip_gc then
    some (Except.error Error.gc, enc)
  else
    match write_blocks_to s.blocks snap.state_map with
    | none => none
    | some secs =>
      some (Except.ok (), enc ++ secs.map Tok.sect ++ [Tok.ds snap.delete_set])

/- ===== statement vocabulary for the codec properties ===== -/

/-- Sum of the block lengths of a per-client sequence. -/
def sumLens (l : List Blk) : Nat := l.foldr (fun b n => b.len + n) 0

/-- Tiling predicate: the slices cover the clock range `[a, b)` exactly,
contiguously and in order. -/
def covers : List Slice → Nat → Nat → Prop
  | [], a, b => a = b
  | s :: rest, a, b => s.lo = a ∧ covers rest s.hi b

/-- Number of sections a client contributes to an encoded block stream. -/
def countClient (secs : List Sect) (c : Nat) : Nat :=
  (secs.map Sect.client).count c

/- ===================== theorems ===================== -/

/-- Inserting with `insertBy` permutes placing the element in front. -/
theorem insertBy_perm {α : Type} (le : α → α → Bool) (x : α) (l : List α) :
    (insertBy le x l).Perm (x :: l) := by
  induction l with
  | nil => exact List.Perm.refl _
  | cons y ys ih =>
    simp only [insertBy]
    split
    · exact List.Perm.refl _
    · exact (List.Perm.cons y ih).trans (List.Perm.swap x y ys)

/-- Stable insertion sort permutes its input. -/
theorem stableSortBy_perm {α : Type} (le : α → α → Bool) (l : List α) :
    (stableSortBy le l).Perm l := by
  induction l with
  | nil => exact List.Perm.refl _
  | cons x xs ih =>
    exact (insertBy_perm le x (stableSortBy le xs)).trans (List.Perm.cons x ih)

/-- Inserting into a `le`-sorted list keeps it sorted, for a total transitive
boolean comparator. -/
theorem insertBy_pairwise {α : Type} (le : α → α → Bool)
    (htot : ∀ a b, le a b = true ∨ le b a = true)
    (htrans : ∀ a b c, le a b = true → le b c = true → le a c = true)
    (x : α) (l : List α) (h : l.Pairwise (fun a b => le a b = true)) :
    (insertBy le x l).Pairwise (fun a b => le a b = true) := by
  induction l with
  | nil => simp [insertBy]
  | cons y ys ih =>
    simp only [insertBy]
    rcases List.pairwise_cons.mp h with ⟨hy, hys⟩
    by_cases hxy : le x y = true
    · rw [if_pos hxy]
      refine List.pairwise_cons.mpr ⟨?_, h⟩
      intro b hb
      rcases List.mem_cons.mp hb with rfl | hb2
      · exact hxy
      · exact htrans x y b hxy (hy b hb2)
    · rw [if_neg hxy]
      refine List.pairwise_cons.mpr ⟨?_, ih hys⟩
      intro b hb
      rcases List.mem_cons.mp ((insertBy_perm le x ys).mem_iff.mp hb) with rfl | hb2
      · rcases htot b y with h1 | h1
        · exact absurd h1 hxy
        · exact h1
      · exact hy b hb2

/-- Stable insertion sort sorts, for a total transitive boolean comparator. -/
theorem stableSortBy_pairwise {α : Type} (le : α → α → Bool)
    (htot : ∀ a b, le a b = true ∨ le b a = true)
    (htrans : ∀ a b c, le a b = true → le b c = true → le a c = true)
    (l : List α) :
    (stableSortBy le l).Pairwise (fun a b => le a b = true) := by
  induction l with
  | nil => exact List.Pairwise.nil
  | cons x xs ih => exact insertBy_pairwise le htot htrans x _ ih

/-- C8: for every collection of events assembled at commit for deep observers,
`Events::new` yields exactly the given events (a permutation) sorted by path
length in non-decreasing order, so an event whose branch has a shorter path
from its root is delivered before any event with a longer path. -/
theorem c8_events_sorted_by_path_length (events : List Event) :
    (Events.new events).Perm events ∧
    (Events.new events).Pairwise (fun a b => a.path.length ≤ b.path.length) := by
  refine ⟨stableSortBy_perm _ events, ?_⟩
  have h := stableSortBy_pairwise
    (fun a b : Event => decide (a.path.length ≤ b.path.length))
    (fun a b => by rcases Nat.le_total a.path.length b.path.length with h | h <;> simp [h])
    (fun a b c hab hbc => by
      simp only [decide_eq_true_eq] at hab hbc ⊢
      omega)
    events
  exact h.imp (fun hab => by simpa using hab)

/-- C2: with at least one update_v1 (respectively update_v2) callback
registered, commit triggers the callbacks if and only if the transaction's
delete set is non-empty or its after state differs from its before state
(under the source's HashMap equality of state vectors). -/
theorem c2_update_callbacks_fire_iff (hasCallbacks : Bool) (txn : TransactionMut)
    (h : hasCallbacks = true) :
    (emit_update_v1 hasCallbacks txn = true ↔
      (dsIsEmpty txn.delete_set = false ∨ svEqB txn.after_state txn.before_state = false)) ∧
    (emit_update_v2 hasCallbacks txn = true ↔
      (dsIsEmpty txn.delete_set = false ∨ svEqB txn.after_state txn.before_state = false)) := by
  subst h
  constructor <;>
  · simp only [emit_update_v1, emit_update_v2, if_true]
    by_cases h1 : dsIsEmpty txn.delete_set <;>
      by_cases h2 : svEqB txn.after_state txn.before_state <;>
        simp [h1, h2]

/-- Witness for C2 at a concrete transaction: one client advanced one clock,
empty delete set, a registered callback - the update events fire. -/
theorem c2_update_callbacks_fire_iff_witness :
    (emit_update_v1 true ⟨[], [(1, 1)], []⟩ = true ↔
      (dsIsEmpty ([] : DeleteSet) = false ∨ svEqB [(1, 1)] [] = false)) ∧
    (emit_update_v2 true ⟨[], [(1, 1)], []⟩ = true ↔
      (dsIsEmpty ([] : DeleteSet) = false ∨ svEqB [(1, 1)] [] = false)) :=
  c2_update_callbacks_fire_iff true ⟨[], [(1, 1)], []⟩ rfl

/-- C7 (code bug): with debug assertions active, `ClientHasher::write` rejects
every 8-byte input - its length assertion demands 16 bytes - even though its
own `<[u8; 8]>::try_from(..).unwrap()` conversion requires exactly 8 bytes, so
no input can satisfy both and `write` can never succeed; with the stale
assertion compiled out (release), an 8-byte write stores exactly the u64
formed from the bytes and `finish` returns it - the identity hash the spec
describes. -/
theorem c7_client_hasher_length_assertions :
    ClientHasher.write ⟨0⟩ [1, 0, 0, 0, 0, 0, 0, 0] = none ∧
    (∀ (h : ClientHasher) (bytes : List Nat), ClientHasher.write h bytes = none) ∧
    ClientHasher.write_release ⟨0⟩ [1, 0, 0, 0, 0, 0, 0, 0] = some ⟨1⟩ ∧
    ClientHasher.finish ⟨1⟩ = 1 := by
  refine ⟨by decide, ?_, by decide, rfl⟩
  intro h bytes
  unfold ClientHasher.write
  by_cases h16 : bytes.length = 16
  · rw [if_pos h16]
    by_cases hp : h.pref = 0
    · rw [if_pos hp, if_neg (by omega)]
    · rw [if_neg hp]
  · rw [if_neg h16]

/-- C4 (code bug): the `Entries` iterator never yields a deleted item, but the
`Iter` iterator - documented in the source as "Deleted blocks are skipped by
this iterator" - performs no deleted check and yields a deleted item on the
concrete one-item branch sequence below. -/
theorem c4_iter_yields_deleted_items :
    (∀ (m : List (String × Item)), ∀ e ∈ entriesAll m, e.2.deleted = false) ∧
    iterNext [⟨1, 0, 1, true, true, 0⟩] = some (⟨1, 0, 1, true, true, 0⟩, []) ∧
    (⟨1, 0, 1, true, true, 0⟩ : Item).deleted = true := by
  refine ⟨?_, rfl, rfl⟩
  intro m
  induction m with
  | nil => intro e he; cases he
  | cons x xs ih =>
    intro e he
    simp only [entriesAll] at he
    by_cases hd : x.2.deleted
    · rw [if_pos hd] at he
      exact ih e he
    · rw [if_neg hd] at he
      rcases List.mem_cons.mp he with rfl | h2
      · simpa using hd
      · exact ih e h2

/-- Unfolding of the live countable length over a cons cell. -/
theorem totalLiveLen_cons (it : Item) (rest : List Item) :
    totalLiveLen (it :: rest) =
      if liveCountable it then it.len + totalLiveLen rest else totalLiveLen rest := by
  simp [totalLiveLen]

/-- The source scan of `get_at` agrees with the cumulative-range scan of the
claim, once the cumulative offset is subtracted. -/
theorem getAtSpecAux_eq_get_at (items : List Item) (i : Nat) :
    ∀ acc, acc ≤ i → getAtSpecAux items i acc = get_at items (i - acc) := by
  induction items with
  | nil => intro acc _; rfl
  | cons item rest ih =>
    intro acc hacc
    simp only [getAtSpecAux, get_at, liveCountable]
    by_cases hl : (!item.deleted && item.countable) = true
    · rw [if_pos hl, if_pos hl]
      by_cases hi : i < acc + item.len
      · rw [if_pos ⟨hacc, hi⟩, if_pos (by omega)]
      · rw [if_neg (by omega), if_neg (by omega)]
        rw [ih (acc + item.len) (by omega)]
        congr 1
        omega
    · rw [if_neg hl, if_neg hl]
      exact ih acc hacc

/-- Success of `get_at` is exactly the index being below the total length of
the live countable items. -/
theorem get_at_isSome_iff (items : List Item) :
    ∀ i, (get_at items i).isSome = true ↔ i < totalLiveLen items := by
  induction items with
  | nil => intro i; simp [get_at, totalLiveLen]
  | cons item rest ih =>
    intro i
    rw [totalLiveLen_cons]
    simp only [get_at, liveCountable]
    by_cases hl : (!item.deleted && item.countable) = true
    · rw [if_pos hl, if_pos hl]
      by_cases hi : i < item.len
      · rw [if_pos hi]
        simp only [Option.isSome_some, true_iff]
        omega
      · rw [if_neg hi]
        rw [ih (i - item.len)]
        omega
    · rw [if_neg hl, if_neg hl]
      exact ih i

/-- C6: `Branch::get_at(i)` returns `Some` exactly when `i` is below the total
length of the branch's non-deleted countable items, and its result equals the
claim-side scan: the first live countable item (start-to-right, skipping
deleted and non-countable items) whose cumulative range contains `i`, paired
with `i` minus the lengths of the preceding live countable items. -/
theorem c6_get_at_characterization (items : List Item) (i : Nat) :
    get_at items i = get_at_by_spec items i ∧
    ((get_at items i).isSome = true ↔ i < totalLiveLen items) := by
  constructor
  · rw [get_at_by_spec, getAtSpecAux_eq_get_at items i 0 (Nat.zero_le i), Nat.sub_zero]
  · exact get_at_isSome_iff items i

/-- With a positive index within the live countable length, `index_to_ptr`
resolves a left anchor item. -/
theorem index_to_ptr_isSome (items : List Item) :
    ∀ i, 0 < i → i ≤ totalLiveLen items → ((index_to_ptr items i).1).isSome = true := by
  induction items with
  | nil => intro i h1 h2; simp [totalLiveLen] at h2; omega
  | cons item rest ih =>
    intro i h1 h2
    rw [totalLiveLen_cons] at h2
    simp only [index_to_ptr, liveCountable] at h2 ⊢
    by_cases hl : (!item.deleted && item.countable) = true
    · rw [if_pos hl]
      rw [if_pos hl] at h2
      by_cases he : i = item.len
      · rw [if_pos he]; rfl
      · rw [if_neg he]
        by_cases hlt : i < item.len
        · rw [if_pos hlt]; rfl
        · rw [if_neg hlt]
          exact ih (i - item.len) (by omega) (by omega)
    · rw [if_neg hl]
      rw [if_neg hl] at h2
      exact ih i h1 h2

/-- With the index equal to the whole live countable length, the right chain
returned by `index_to_ptr` carries no further live countable content: the
anchor is the end of the sequence. -/
theorem index_to_ptr_at_end (items : List Item) :
    ∀ i, 0 < i → i = totalLiveLen items → totalLiveLen (index_to_ptr items i).2 = 0 := by
  induction items with
  | nil => intro i h1 h2; simp [totalLiveLen] at h2; omega
  | cons item rest ih =>
    intro i h1 h2
    rw [totalLiveLen_cons] at h2
    simp only [liveCountable] at h2
    simp only [index_to_ptr, liveCountable]
    by_cases hl : (!item.deleted && item.countable) = true
    · rw [if_pos hl]
      rw [if_pos hl] at h2
      by_cases he : i = item.len
      · rw [if_pos he]
        show totalLiveLen rest = 0
        omega
      · rw [if_neg he]
        by_cases hlt : i < item.len
        · omega
        · rw [if_neg hlt]
          exact ih (i - item.len) (by omega) (by omega)
    · rw [if_neg hl]
      rw [if_neg hl] at h2
      exact ih i h1 h2

/-- C9: provided the branch's `len()` equals the live countable length of its
sequence, `insert_at` panics (returns `none`) exactly when the index exceeds
`len()`; every index at most `len()` is accepted with a resolved anchor, the
anchor item existing whenever the index is positive; and an index equal to
`len()` anchors at the end of the sequence - no live countable content remains
to its right. -/
theorem c9_insert_at_bounds (items : List Item) (block_len i : Nat)
    (h : block_len = totalLiveLen items) :
    (insert_at items block_len i = none ↔ block_len < i) ∧
    (i ≤ block_len → ∃ p, insert_at items block_len i = some p) ∧
    (0 < i → i ≤ block_len → ((index_to_ptr items i).1).isSome = true) ∧
    (i = block_len → ∀ l r, insert_at items block_len i = some (l, r) → totalLiveLen r = 0) := by
  refine ⟨?_, ?_, ?_, ?_⟩
  · unfold insert_at
    by_cases hle : i ≤ block_len
    · rw [if_pos hle]
      simp only [reduceCtorEq, false_iff]
      omega
    · rw [if_neg hle]
      simp only [true_iff]
      omega
  · intro hle
    exact ⟨_, by rw [insert_at, if_pos hle]⟩
  · intro h1 h2
    exact index_to_ptr_isSome items i h1 (by omega)
  · intro hi l r hsome
    rw [insert_at, if_pos (by omega)] at hsome
    by_cases h0 : i = 0
    · rw [if_pos h0] at hsome
      cases hsome
      omega
    · rw [if_neg h0] at hsome
      have hend := index_to_ptr_at_end items i (by omega) (by omega)
      rw [Option.some.inj hsome] at hend
      exact hend

/-- Witness for C9 at a concrete one-item sequence of length 2, inserting at
index 2 (the append position). -/
theorem c9_insert_at_bounds_witness :
    (insert_at [⟨1, 0, 2, false, true, 7⟩] 2 2 = none ↔ 2 < 2) ∧
    (2 ≤ 2 → ∃ p, insert_at [⟨1, 0, 2, false, true, 7⟩] 2 2 = some p) ∧
    (0 < 2 → 2 ≤ 2 → ((index_to_ptr [⟨1, 0, 2, false, true, 7⟩] 2).1).isSome = true) ∧
    (2 = 2 → ∀ l r, insert_at [⟨1, 0, 2, false, true, 7⟩] 2 2 = some (l, r) →
      totalLiveLen r = 0) :=
  c9_insert_at_bounds [⟨1, 0, 2, false, true, 7⟩] 2 2 (by decide)

/-- Association-list lookup skips a prefix in which the key does not occur. -/
theorem lookup_append_of_none {α β : Type} [BEq α] (a : α) (l1 l2 : List (α × β))
    (h : l1.lookup a = none) : (l1 ++ l2).lookup a = l2.lookup a := by
  induction l1 with
  | nil => rfl
  | cons e rest ih =>
    obtain ⟨k, v⟩ := e
    simp only [List.cons_append, List.lookup] at h ⊢
    revert h
    cases a == k
    · exact fun h => ih h
    · exact fun h => Option.noConfusion h

/-- Association-list lookup misses when no entry carries the key. -/
theorem lookup_eq_none_of_fresh {α β : Type} [BEq α] [LawfulBEq α] (a : α)
    (l : List (α × β)) (h : ∀ e ∈ l, e.1 ≠ a) : l.lookup a = none := by
  induction l with
  | nil => rfl
  | cons e rest ih =>
    obtain ⟨k, v⟩ := e
    simp only [List.lookup]
    cases hk : a == k
    · exact ih (fun e he => h e (List.mem_cons_of_mem _ he))
    · exact absurd (eq_of_beq hk).symm (h (k, v) (List.mem_cons_self _ _))

/-- Repairing one arena entry in place relates the lookups before and after. -/
theorem lookup_map_repair (l : List (Nat × Branch)) (bid : Nat) (t : TypeRef) :
    (l.map (fun e => if e.1 = bid then (e.1, e.2.repair_type_ref t) else e)).lookup bid
      = (l.lookup bid).map (fun b => b.repair_type_ref t) := by
  induction l with
  | nil => rfl
  | cons e rest ih =>
    obtain ⟨k, v⟩ := e
    by_cases hk : k = bid
    · subst hk
      simp only [List.map_cons, if_pos rfl]
      simp [List.lookup]
    · simp only [List.map_cons, if_neg hk]
      simp only [List.lookup]
      have hbk : (bid == k) = false := beq_eq_false_iff_ne.mpr (fun hh => hk hh.symm)
      rw [hbk]
      exact ih

/-- Repairing one arena entry in place does not change the id column. -/
theorem map_repair_fst (l : List (Nat × Branch)) (bid : Nat) (t : TypeRef) :
    (l.map (fun e => if e.1 = bid then (e.1, e.2.repair_type_ref t) else e)).map Prod.fst
      = l.map Prod.fst := by
  induction l with
  | nil => rfl
  | cons e rest ih =>
    simp only [List.map_cons, ih]
    by_cases hk : e.1 = bid
    · rw [if_pos hk]
    · rw [if_neg hk]

/-- Repair only replaces an `Undefined` type_ref. -/
theorem repair_type_ref_spec (b : Branch) (t : TypeRef) :
    (b.repair_type_ref t).type_ref
      = if b.type_ref = TypeRef.undefined then t else b.type_ref := by
  by_cases h : b.type_ref = TypeRef.undefined <;>
    simp [Branch.repair_type_ref, h]

/-- Computation of `get_or_create_type` on an occupied root-type entry. -/
theorem get_or_create_type_occupied (s : Store) (key : String) (t : TypeRef)
    (bid : Nat) (h : s.types.lookup key = some bid) :
    get_or_create_type s key t =
      (bid,
       { s with
         arena := s.arena.map (fun e =>
           if e.1 = bid then (e.1, e.2.repair_type_ref t) else e) }) := by
  simp only [get_or_create_type, h]

/-- Computation of `get_or_create_type` on a vacant root-type entry. -/
theorem get_or_create_type_vacant (s : Store) (key : String) (t : TypeRef)
    (h : s.types.lookup key = none) :
    get_or_create_type s key t =
      (s.next_id,
       { s with
         types := s.types ++ [(key, s.next_id)]
         arena := s.arena ++ [(s.next_id, { type_ref := t, name := some key })]
         node_registry := s.node_registry ++ [s.next_id]
         next_id := s.next_id + 1 }) := by
  simp only [get_or_create_type, h]

/-- C10: `get_or_create_type` is idempotent per name - a second call with the
same name returns the same branch pointer, allocates nothing (arena ids,
allocation counter, registry and root-type map unchanged), and replaces the
branch\'s type_ref with the newly requested one exactly when the type_ref held
after the first call is `Undefined`. -/
theorem c10_get_or_create_type_idempotent (s : Store) (key : String) (t1 t2 : TypeRef)
    (wfa : ∀ e ∈ s.arena, e.1 < s.next_id)
    (wft : ∀ bid, s.types.lookup key = some bid → (s.arena.lookup bid).isSome = true) :
    ((get_or_create_type (get_or_create_type s key t1).2 key t2).1
       = (get_or_create_type s key t1).1) ∧
    ((get_or_create_type (get_or_create_type s key t1).2 key t2).2.types
       = (get_or_create_type s key t1).2.types) ∧
    ((get_or_create_type (get_or_create_type s key t1).2 key t2).2.next_id
       = (get_or_create_type s key t1).2.next_id) ∧
    ((get_or_create_type (get_or_create_type s key t1).2 key t2).2.node_registry
       = (get_or_create_type s key t1).2.node_registry) ∧
    (arenaIds (get_or_create_type (get_or_create_type s key t1).2 key t2).2
       = arenaIds (get_or_create_type s key t1).2) ∧
    (typeRefAt (get_or_create_type (get_or_create_type s key t1).2 key t2).2
        (get_or_create_type s key t1).1
       = if typeRefAt (get_or_create_type s key t1).2 (get_or_create_type s key t1).1
            = some TypeRef.undefined
         then some t2
         else typeRefAt (get_or_create_type s key t1).2 (get_or_create_type s key t1).1) := by
  rcases hk : s.types.lookup key with _ | bid
  · -- vacant: the first call allocates the branch under next_id
    rw [get_or_create_type_vacant s key t1 hk]
    dsimp only
    have hfresh : s.arena.lookup s.next_id = none :=
      lookup_eq_none_of_fresh _ _ (fun e he => Nat.ne_of_lt (wfa e he))
    have hl1 : (s.types ++ [(key, s.next_id)]).lookup key = some s.next_id := by
      rw [lookup_append_of_none key _ _ hk]
      simp [List.lookup]
    rw [get_or_create_type_occupied _ key t2 s.next_id hl1]
    dsimp only
    have harena : (s.arena
        ++ [(s.next_id, ({ type_ref := t1, name := some key } : Branch))]).lookup s.next_id
        = some { type_ref := t1, name := some key } := by
      rw [lookup_append_of_none _ _ _ hfresh]
      simp [List.lookup]
    refine ⟨rfl, rfl, rfl, rfl, map_repair_fst _ _ _, ?_⟩
    simp only [typeRefAt]
    rw [lookup_map_repair, harena]
    by_cases h1 : t1 = TypeRef.undefined <;>
      simp [Branch.repair_type_ref, h1]
  · -- occupied: the first call repairs the existing branch in place
    have hbs := wft bid hk
    rcases ho : s.arena.lookup bid with _ | b
    · rw [ho] at hbs
      simp at hbs
    · rw [get_or_create_type_occupied s key t1 bid hk]
      dsimp only
      rw [get_or_create_type_occupied
            { s with arena := s.arena.map (fun e =>
                if e.1 = bid then (e.1, e.2.repair_type_ref t1) else e) }
            key t2 bid hk]
      dsimp only
      refine ⟨rfl, rfl, rfl, rfl, map_repair_fst _ _ _, ?_⟩
      have hx := repair_type_ref_spec (b.repair_type_ref t1) t2
      simp only [typeRefAt, lookup_map_repair, ho, Option.map_some']
      rw [hx]
      by_cases h1 : (b.repair_type_ref t1).type_ref = TypeRef.undefined <;> simp [h1]

/-- Witness for C10 on a concrete empty store: create "root" as `Undefined`,
then request it as `Map`. -/
theorem c10_get_or_create_type_idempotent_witness :
    ((get_or_create_type
        (get_or_create_type ⟨⟨1, true⟩, [], [], [], 0, []⟩ "root" TypeRef.undefined).2
        "root" TypeRef.map).1
       = (get_or_create_type ⟨⟨1, true⟩, [], [], [], 0, []⟩ "root" TypeRef.undefined).1) ∧
    ((get_or_create_type
        (get_or_create_type ⟨⟨1, true⟩, [], [], [], 0, []⟩ "root" TypeRef.undefined).2
        "root" TypeRef.map).2.types
       = (get_or_create_type ⟨⟨1, true⟩, [], [], [], 0, []⟩ "root" TypeRef.undefined).2.types) ∧
    ((get_or_create_type
        (get_or_create_type ⟨⟨1, true⟩, [], [], [], 0, []⟩ "root" TypeRef.undefined).2
        "root" TypeRef.map).2.next_id
       = (get_or_create_type ⟨⟨1, true⟩, [], [], [], 0, []⟩ "root" TypeRef.undefined).2.next_id) ∧
    ((get_or_create_type
        (get_or_create_type ⟨⟨1, true⟩, [], [], [], 0, []⟩ "root" TypeRef.undefined).2
        "root" TypeRef.map).2.node_registry
       = (get_or_create_type ⟨⟨1, true⟩, [], [], [], 0, []⟩ "root" TypeRef.undefined).2.node_registry) ∧
    (arenaIds (get_or_create_type
        (get_or_create_type ⟨⟨1, true⟩, [], [], [], 0, []⟩ "root" TypeRef.undefined).2
        "root" TypeRef.map).2
       = arenaIds (get_or_create_type ⟨⟨1, true⟩, [], [], [], 0, []⟩ "root" TypeRef.undefined).2) ∧
    (typeRefAt (get_or_create_type
        (get_or_create_type ⟨⟨1, true⟩, [], [], [], 0, []⟩ "root" TypeRef.undefined).2
        "root" TypeRef.map).2
        (get_or_create_type ⟨⟨1, true⟩, [], [], [], 0, []⟩ "root" TypeRef.undefined).1
       = if typeRefAt (get_or_create_type ⟨⟨1, true⟩, [], [], [], 0, []⟩ "root" TypeRef.undefined).2
              (get_or_create_type ⟨⟨1, true⟩, [], [], [], 0, []⟩ "root" TypeRef.undefined).1
            = some TypeRef.undefined
         then some TypeRef.map
         else typeRefAt (get_or_create_type ⟨⟨1, true⟩, [], [], [], 0, []⟩ "root" TypeRef.undefined).2
              (get_or_create_type ⟨⟨1, true⟩, [], [], [], 0, []⟩ "root" TypeRef.undefined).1) :=
  c10_get_or_create_type_idempotent ⟨⟨1, true⟩, [], [], [], 0, []⟩ "root"
    TypeRef.undefined TypeRef.map
    (fun e he => absurd he (List.not_mem_nil e))
    (fun bid h => by cases h)

theorem sumLens_nil : sumLens [] = 0 := rfl

theorem sumLens_cons (b : Blk) (rest : List Blk) :
    sumLens (b :: rest) = b.len + sumLens rest := rfl

theorem clockOf_singleton (b : Blk) : clockOf [b] = b.clock + b.len := rfl

theorem clockOf_cons_cons (b r : Blk) (rs : List Blk) :
    clockOf (b :: r :: rs) = clockOf (r :: rs) := by
  simp [clockOf, List.getLast?_cons_cons]

theorem startsAt_cons_iff (b : Blk) (rest : List Blk) (n : Nat) :
    startsAt (b :: rest) n = true ↔
      b.clock = n ∧ 0 < b.len ∧ startsAt rest (n + b.len) = true := by
  simp [startsAt, Bool.and_assoc]

theorem startsAt_clockOf (l : List Blk) :
    ∀ n, startsAt l n = true → l ≠ [] → clockOf l = n + sumLens l := by
  induction l with
  | nil => intro n _ h; exact absurd rfl h
  | cons b rest ih =>
    intro n h _
    obtain ⟨hb, hlen, hrest⟩ := (startsAt_cons_iff b rest n).mp h
    cases rest with
    | nil =>
      rw [clockOf_singleton, sumLens_cons, sumLens_nil]
      omega
    | cons r rs =>
      rw [clockOf_cons_cons]
      have hr := ih (n + b.len) hrest (by simp)
      rw [sumLens_cons]
      omega

theorem clockOf_cons_of_ne (b : Blk) (rest : List Blk) (h : rest ≠ []) :
    clockOf (b :: rest) = clockOf rest := by
  cases rest with
  | nil => exact absurd rfl h
  | cons r rs => exact clockOf_cons_cons b r rs

theorem clockOf_pos (l : List Blk) (h : startsAt l 0 = true) (hne : l ≠ []) :
    0 < clockOf l := by
  cases l with
  | nil => exact absurd rfl hne
  | cons b rest =>
    obtain ⟨_, hlen, _⟩ := (startsAt_cons_iff b rest 0).mp h
    have h2 := startsAt_clockOf (b :: rest) 0 h hne
    rw [sumLens_cons] at h2
    omega

theorem covers_append (l1 : List Slice) :
    ∀ (l2 : List Slice) (a m b : Nat), covers l1 a m → covers l2 m b →
      covers (l1 ++ l2) a b := by
  induction l1 with
  | nil =>
    intro l2 a m b h1 h2
    have h3 : a = m := h1
    rw [List.nil_append, h3]
    exact h2
  | cons x rest ih =>
    intro l2 a m b h1 h2
    obtain ⟨hlo, hrest⟩ := h1
    exact ⟨hlo, ih l2 x.hi m b hrest h2⟩

theorem covers_map_asSlice (l : List Blk) :
    ∀ n, startsAt l n = true → covers (l.map Blk.asSlice) n (n + sumLens l) := by
  induction l with
  | nil =>
    intro n _
    show n = n + sumLens []
    rw [sumLens_nil]
    omega
  | cons b rest ih =>
    intro n h
    obtain ⟨hb, _, hrest⟩ := (startsAt_cons_iff b rest n).mp h
    refine ⟨by simpa [Blk.asSlice] using hb, ?_⟩
    have h2 := ih (n + b.len) hrest
    have hhi : (Blk.asSlice b).hi = n + b.len := by
      simp [Blk.asSlice]
      omega
    rw [hhi, sumLens_cons, ← Nat.add_assoc]
    exact h2

theorem find_pivot_spec (bs : List Blk) :
    ∀ n c, startsAt bs n = true → n ≤ c → c < clockOf bs →
      ∃ i b rest, find_pivot bs c = some i ∧ bs.drop i = b :: rest ∧
        b.clock ≤ c ∧ c < b.clock + b.len ∧ 0 < b.len ∧
        startsAt rest (b.clock + b.len) = true ∧
        b.clock + b.len + sumLens rest = clockOf bs := by
  induction bs with
  | nil =>
    intro n c _ _ h2
    simp [clockOf] at h2
  | cons b rest ih =>
    intro n c h hn hc
    obtain ⟨hb, hlen, hrest⟩ := (startsAt_cons_iff b rest n).mp h
    by_cases hcb : c < b.clock + b.len
    · refine ⟨0, b, rest, ?_, rfl, by omega, hcb, hlen, ?_, ?_⟩
      · simp [find_pivot, hcb]
      · rw [hb]
        exact hrest
      · cases rest with
        | nil =>
          rw [clockOf_singleton, sumLens_nil]
          omega
        | cons r rs =>
          rw [clockOf_cons_cons]
          have h3 := startsAt_clockOf (r :: rs) (n + b.len) hrest (by simp)
          omega
    · have hrne : rest ≠ [] := by
        intro he
        subst he
        rw [clockOf_singleton] at hc
        omega
      have hcr : c < clockOf rest := by
        rw [clockOf_cons_of_ne b rest hrne] at hc
        exact hc
      obtain ⟨i, b2, rest2, hip, hdrop, h1, h2, h3, h4, h5⟩ :=
        ih (n + b.len) c hrest (by omega) hcr
      refine ⟨i + 1, b2, rest2, ?_, ?_, h1, h2, h3, h4, ?_⟩
      · simp [find_pivot, hcb, hip]
      · simpa using hdrop
      · rw [clockOf_cons_of_ne b rest hrne]
        exact h5

theorem get?_of_drop {α : Type} (l : List α) :
    ∀ i (x : α) rest, l.drop i = x :: rest → l.get? i = some x := by
  induction l with
  | nil =>
    intro i x rest h
    rw [List.drop_nil] at h
    cases h
  | cons a as ih =>
    intro i x rest h
    cases i with
    | zero =>
      cases h
      rfl
    | succ j =>
      simp only [List.drop_succ_cons] at h
      simpa using ih j x rest h

theorem covers_take_pivot (bs : List Blk) :
    ∀ n i (b : Blk) rest, startsAt bs n = true → bs.drop i = b :: rest →
      covers ((bs.take i).map Blk.asSlice) n b.clock := by
  induction bs with
  | nil =>
    intro n i b rest _ hd
    rw [List.drop_nil] at hd
    cases hd
  | cons hd tl ih =>
    intro n i b rest h hdrp
    obtain ⟨hb, hlen, hrest⟩ := (startsAt_cons_iff hd tl n).mp h
    cases i with
    | zero =>
      cases hdrp
      exact hb.symm
    | succ j =>
      simp only [List.drop_succ_cons] at hdrp
      simp only [List.take_succ_cons, List.map_cons]
      refine ⟨by simpa [Blk.asSlice] using hb, ?_⟩
      have h2 := ih (n + hd.len) j b rest hrest hdrp
      have hhi : (Blk.asSlice hd).hi = n + hd.len := by
        simp [Blk.asSlice]
        omega
      rw [hhi]
      exact h2

theorem writeClientFrom_spec (store : BlockStore) (c k : Nat) (bs : List Blk)
    (hb : store.lookup c = some bs) (hs : startsAt bs 0 = true) (hne : bs ≠ [])
    (hk : k < clockOf bs) :
    ∃ sect, writeClientFrom store (c, k) = some sect ∧ sect.client = c ∧
      sect.clock = k ∧ covers sect.slices k (clockOf bs) := by
  obtain ⟨b0, bs0, rfl⟩ : ∃ b0 bs0, bs = b0 :: bs0 := by
    cases bs with
    | nil => exact absurd rfl hne
    | cons x xs => exact ⟨x, xs, rfl⟩
  obtain ⟨hb0, _, _⟩ := (startsAt_cons_iff b0 bs0 0).mp hs
  have hclk : max k ((((b0 :: bs0).get? 0).map Blk.clock).getD 0) = k := by
    have hg : (b0 :: bs0).get? 0 = some b0 := rfl
    rw [hg]
    simp [hb0]
  obtain ⟨i, b, rest, hip, hdrop, h1, h2, h3, h4, h5⟩ :=
    find_pivot_spec (b0 :: bs0) 0 k hs (Nat.zero_le k) hk
  have hget := get?_of_drop (b0 :: bs0) i b rest hdrop
  have hdr : (b0 :: bs0).drop (i + 1) = rest := by
    rw [← List.drop_drop, hdrop]
    rfl
  refine ⟨{ count := (b0 :: bs0).length - i
            client := c
            clock := k
            slices := (b.asSlice.trimStart (k - b.clock))
                      :: (((b0 :: bs0).drop (i + 1)).map Blk.asSlice) },
          ?_, rfl, rfl, ?_⟩
  · simp only [writeClientFrom, getClient, hb, hclk, hip, hget]
  · have htrim : b.asSlice.trimStart (k - b.clock) = ⟨k, b.clock + b.len⟩ := by
      simp only [Blk.asSlice, Slice.trimStart, Slice.mk.injEq]
      refine ⟨by omega, trivial⟩
    rw [htrim, hdr]
    refine ⟨rfl, ?_⟩
    have h6 := covers_map_asSlice rest (b.clock + b.len) h4
    rw [← h5]
    exact h6

theorem writeClientTo_spec (store : BlockStore) (c k : Nat) (bs : List Blk)
    (hb : store.lookup c = some bs) (hs : startsAt bs 0 = true)
    (hk1 : 1 ≤ k) (hk2 : k ≤ clockOf bs) :
    ∃ sect, writeClientTo store (c, k) = some sect ∧ sect.client = c ∧
      covers sect.slices 0 k := by
  have hclk : min k (clockOf bs + 1) = k := by omega
  have hk0 : ¬ (k = 0) := by omega
  obtain ⟨i, b, rest, hip, hdrop, h1, h2, h3, h4, h5⟩ :=
    find_pivot_spec bs 0 (k - 1) hs (Nat.zero_le _) (by omega)
  have hget := get?_of_drop bs i b rest hdrop
  have htake := covers_take_pivot bs 0 i b rest hs hdrop
  refine ⟨{ count := i + 1
            client := c
            clock := 0
            slices := ((bs.take i).map Blk.asSlice)
                      ++ [b.asSlice.trimEnd (b.asSlice.clockEndIncl - (k - 1))] },
          ?_, rfl, ?_⟩
  · simp only [writeClientTo, getClient, hb, hclk, if_neg hk0, hip, hget]
  · have htrim : b.asSlice.trimEnd (b.asSlice.clockEndIncl - (k - 1)) = ⟨b.clock, k⟩ := by
      simp only [Blk.asSlice, Slice.trimEnd, Slice.clockEndIncl, Slice.mk.injEq]
      refine ⟨trivial, by omega⟩
    rw [htrim]
    refine covers_append _ _ 0 b.clock k htake ⟨rfl, ?_⟩
    show k = k
    rfl

theorem sectionsFrom_total (store : BlockStore) :
    ∀ l, (∀ e ∈ l, ∃ s, writeClientFrom store e = some s) →
      ∃ secs, sectionsFrom store l = some secs ∧
        List.Forall₂ (fun e s => writeClientFrom store e = some s) l secs := by
  intro l
  induction l with
  | nil => exact fun _ => ⟨[], rfl, List.Forall₂.nil⟩
  | cons e rest ih =>
    intro h
    obtain ⟨s, hs⟩ := h e (List.mem_cons_self _ _)
    obtain ⟨secs, hsecs, hf⟩ := ih (fun x hx => h x (List.mem_cons_of_mem _ hx))
    refine ⟨s :: secs, ?_, List.Forall₂.cons hs hf⟩
    simp [sectionsFrom, hs, hsecs]

theorem sectionsTo_total (store : BlockStore) :
    ∀ l, (∀ e ∈ l, ∃ s, writeClientTo store e = some s) →
      ∃ secs, sectionsTo store l = some secs ∧
        List.Forall₂ (fun e s => writeClientTo store e = some s) l secs := by
  intro l
  induction l with
  | nil => exact fun _ => ⟨[], rfl, List.Forall₂.nil⟩
  | cons e rest ih =>
    intro h
    obtain ⟨s, hs⟩ := h e (List.mem_cons_self _ _)
    obtain ⟨secs, hsecs, hf⟩ := ih (fun x hx => h x (List.mem_cons_of_mem _ hx))
    refine ⟨s :: secs, ?_, List.Forall₂.cons hs hf⟩
    simp [sectionsTo, hs, hsecs]

theorem sectionsFrom_forall₂ (store : BlockStore) :
    ∀ l secs, sectionsFrom store l = some secs →
      List.Forall₂ (fun e s => writeClientFrom store e = some s) l secs := by
  intro l
  induction l with
  | nil =>
    intro secs h
    simp only [sectionsFrom] at h
    cases h
    exact List.Forall₂.nil
  | cons e rest ih =>
    intro secs h
    simp only [sectionsFrom] at h
    rcases hw : writeClientFrom store e with _ | s
    · rw [hw] at h
      cases h
    · rcases hr : sectionsFrom store rest with _ | l2
      · rw [hw, hr] at h
        cases h
      · rw [hw, hr] at h
        cases h
        exact List.Forall₂.cons hw (ih l2 hr)

theorem sectionsTo_forall₂ (store : BlockStore) :
    ∀ l secs, sectionsTo store l = some secs →
      List.Forall₂ (fun e s => writeClientTo store e = some s) l secs := by
  intro l
  induction l with
  | nil =>
    intro secs h
    simp only [sectionsTo] at h
    cases h
    exact List.Forall₂.nil
  | cons e rest ih =>
    intro secs h
    simp only [sectionsTo] at h
    rcases hw : writeClientTo store e with _ | s
    · rw [hw] at h
      cases h
    · rcases hr : sectionsTo store rest with _ | l2
      · rw [hw, hr] at h
        cases h
      · rw [hw, hr] at h
        cases h
        exact List.Forall₂.cons hw (ih l2 hr)

theorem writeClientFrom_client (store : BlockStore) (e : Nat × Nat) (s : Sect)
    (h : writeClientFrom store e = some s) : s.client = e.1 := by
  unfold writeClientFrom at h
  rcases hg : getClient store e.1 with _ | blocks
  · rw [hg] at h
    cases h
  · rw [hg] at h
    dsimp only at h
    rcases hp : find_pivot blocks (max e.2 (((blocks.get? 0).map Blk.clock).getD 0)) with _ | i
    · rw [hp] at h
      cases h
    · rw [hp] at h
      dsimp only at h
      rcases hq : blocks.get? i with _ | fb
      · rw [hq] at h
        cases h
      · rw [hq] at h
        cases h
        rfl

theorem writeClientTo_client (store : BlockStore) (e : Nat × Nat) (s : Sect)
    (h : writeClientTo store e = some s) : s.client = e.1 := by
  unfold writeClientTo at h
  rcases hg : getClient store e.1 with _ | blocks
  · rw [hg] at h
    cases h
  · rw [hg] at h
    dsimp only at h
    by_cases hz : min e.2 (clockOf blocks + 1) = 0
    · rw [if_pos hz] at h
      cases h
    · rw [if_neg hz] at h
      rcases hp : find_pivot blocks (min e.2 (clockOf blocks + 1) - 1) with _ | i
      · rw [hp] at h
        cases h
      · rw [hp] at h
        dsimp only at h
        rcases hq : blocks.get? i with _ | lb
        · rw [hq] at h
          cases h
        · rw [hq] at h
          cases h
          rfl

theorem forall₂_mem_right {α β : Type} {r : α → β → Prop} :
    ∀ {l1 : List α} {l2 : List β}, List.Forall₂ r l1 l2 → ∀ s ∈ l2, ∃ e ∈ l1, r e s := by
  intro l1 l2 h
  induction h with
  | nil => intro s hs; cases hs
  | cons h1 _ ih =>
    intro s hs
    rcases List.mem_cons.mp hs with rfl | hs2
    · exact ⟨_, List.mem_cons_self _ _, h1⟩
    · obtain ⟨e, he, hr⟩ := ih s hs2
      exact ⟨e, List.mem_cons_of_mem _ he, hr⟩

theorem forall₂_clients {w : (Nat × Nat) → Option Sect}
    (hcl : ∀ e s, w e = some s → s.client = e.1) :
    ∀ {l : List (Nat × Nat)} {secs : List Sect},
      List.Forall₂ (fun e s => w e = some s) l secs →
      secs.map Sect.client = l.map Prod.fst := by
  intro l secs h
  induction h with
  | nil => rfl
  | cons h1 _ ih =>
    simp only [List.map_cons, ih]
    rw [hcl _ _ h1]

theorem mem_of_lookup {α : Type} (l : List (Nat × α)) (a : Nat) (b : α) :
    l.lookup a = some b → (a, b) ∈ l := by
  induction l with
  | nil => intro h; cases h
  | cons e rest ih =>
    obtain ⟨k, v⟩ := e
    intro h
    simp only [List.lookup] at h
    revert h
    cases hk : a == k
    · intro h
      exact List.mem_cons_of_mem _ (ih h)
    · intro h
      cases h
      have : a = k := eq_of_beq hk
      subst this
      exact List.mem_cons_self _ _

theorem lookup_of_mem_nodup {α : Type} (l : List (Nat × α)) (c : Nat) (v : α)
    (hn : (l.map Prod.fst).Nodup) (hm : (c, v) ∈ l) : l.lookup c = some v := by
  induction l with
  | nil => cases hm
  | cons e rest ih =>
    obtain ⟨k, w⟩ := e
    simp only [List.map_cons, List.nodup_cons] at hn
    rcases List.mem_cons.mp hm with heq | hm2
    · cases heq
      simp [List.lookup]
    · have hkc : k ≠ c := by
        intro hkc
        subst hkc
        exact hn.1 (List.mem_map.mpr ⟨(k, v), hm2, rfl⟩)
      simp only [List.lookup]
      have : (c == k) = false := beq_eq_false_iff_ne.mpr (fun hh => hkc hh.symm)
      rw [this]
      exact ih hn.2 hm2

theorem lookup_map_value {α β : Type} (l : List (Nat × α)) (f : α → β) (c : Nat) :
    (l.map (fun e => (e.1, f e.2))).lookup c = (l.lookup c).map f := by
  induction l with
  | nil => rfl
  | cons e rest ih =>
    obtain ⟨k, v⟩ := e
    simp only [List.map_cons, List.lookup]
    cases hk : c == k
    · exact ih
    · rfl

theorem countP_filterMap_keyed (f : Nat × Nat → Option (Nat × Nat))
    (hf : ∀ e r, f e = some r → r.1 = e.1) (l : List (Nat × Nat)) (c : Nat) :
    List.countP (fun e => e.1 == c) (l.filterMap f)
      = List.countP (fun e => (f e).isSome && (e.1 == c)) l := by
  induction l with
  | nil => rfl
  | cons e rest ih =>
    rcases hfe : f e with _ | r
    · rw [List.filterMap_cons_none hfe, List.countP_cons, ih]
      simp [hfe]
    · rw [List.filterMap_cons_some hfe, List.countP_cons, List.countP_cons, ih,
          hf e r hfe]
      simp [hfe]

theorem countP_keyed_nodup (l : List (Nat × Nat)) (p : Nat × Nat → Bool) (c : Nat)
    (hn : (l.map Prod.fst).Nodup) :
    List.countP (fun e => p e && (e.1 == c)) l
      = match l.lookup c with
        | some v => if p (c, v) then 1 else 0
        | none => 0 := by
  induction l with
  | nil => rfl
  | cons e rest ih =>
    obtain ⟨k, v⟩ := e
    simp only [List.map_cons, List.nodup_cons] at hn
    by_cases hk : k = c
    · subst hk
      have hz : List.countP (fun e => p e && (e.1 == k)) rest = 0 := by
        rw [List.countP_eq_zero]
        intro a ha
        have hne : a.1 ≠ k := fun hak => hn.1 (List.mem_map.mpr ⟨a, ha, hak⟩)
        simp [hne]
      rw [List.countP_cons, hz]
      simp only [List.lookup, beq_self_eq_true]
      simp
    · have hck : (c == k) = false := beq_eq_false_iff_ne.mpr (fun hh => hk hh.symm)
      have hkc : ((k, v).1 == c) = false := beq_eq_false_iff_ne.mpr hk
      simp only [List.countP_cons, List.lookup, hck, hkc, Bool.and_false]
      rw [ih hn.2]
      simp

theorem getStateVector_keys (store : BlockStore) :
    (getStateVector store).map Prod.fst = store.map Prod.fst := by
  induction store with
  | nil => rfl
  | cons e rest ih => simp [getStateVector] at ih ⊢

theorem getStateVector_lookup (store : BlockStore) (c : Nat) :
    (getStateVector store).lookup c = (store.lookup c).map clockOf :=
  lookup_map_value store clockOf c

theorem store_lookup_wf (store : BlockStore) (hwf : blockStoreWF store) (c : Nat)
    (bs : List Blk) (h : store.lookup c = some bs) :
    bs ≠ [] ∧ startsAt bs 0 = true ∧ clockOf bs = svGet (getStateVector store) c ∧
      0 < clockOf bs := by
  have hmem := mem_of_lookup store c bs h
  obtain ⟨hne, hst⟩ := hwf.2 _ hmem
  have hl : (getStateVector store).lookup c = some (clockOf bs) := by
    rw [getStateVector_lookup, h]
    rfl
  refine ⟨hne, hst, by simp [svGet, hl], clockOf_pos bs hst hne⟩

theorem svGet_lookup_none (sv : StateVector) (c : Nat) (h : sv.lookup c = none) :
    svGet sv c = 0 := by
  simp [svGet, h]

theorem svGet_lookup_some (sv : StateVector) (c v : Nat) (h : sv.lookup c = some v) :
    svGet sv c = v := by
  simp [svGet, h]

theorem diff_mem_spec (store : BlockStore) (sv : StateVector)
    (hwf : blockStoreWF store) (hsv : svWF sv) (e : Nat × Nat)
    (he : e ∈ diff_state_vectors (getStateVector store) sv) :
    ∃ bs, store.lookup e.1 = some bs ∧ bs ≠ [] ∧ startsAt bs 0 = true ∧
      e.2 = svGet sv e.1 ∧ svGet sv e.1 < clockOf bs ∧
      clockOf bs = svGet (getStateVector store) e.1 := by
  rw [diff_state_vectors] at he
  rcases List.mem_append.mp he with h1 | h2
  · obtain ⟨a, ha, hfa⟩ := List.mem_filterMap.mp h1
    by_cases hq : svGet (getStateVector store) a.1 > a.2
    · rw [if_pos hq] at hfa
      cases hfa
      dsimp only
      have ha2 : svGet sv a.1 = a.2 :=
        svGet_lookup_some sv a.1 a.2 (lookup_of_mem_nodup sv a.1 a.2 hsv ha)
      rcases hsl : store.lookup a.1 with _ | bs
      · exfalso
        have h0 : svGet (getStateVector store) a.1 = 0 := by
          simp [svGet, getStateVector_lookup, hsl]
        omega
      · obtain ⟨hne, hst, hck, _⟩ := store_lookup_wf store hwf a.1 bs
          (by rw [hsl])
        exact ⟨bs, rfl, hne, hst, ha2.symm, by omega, hck⟩
    · rw [if_neg hq] at hfa
      cases hfa
  · obtain ⟨a, ha, hfa⟩ := List.mem_filterMap.mp h2
    by_cases hq : svGet sv a.1 = 0
    · rw [if_pos hq] at hfa
      cases hfa
      dsimp only
      have hla : (getStateVector store).lookup a.1 = some a.2 :=
        lookup_of_mem_nodup _ a.1 a.2 (by rw [getStateVector_keys]; exact hwf.1) ha
      rcases hsl : store.lookup a.1 with _ | bs
      · exfalso
        rw [getStateVector_lookup, hsl] at hla
        cases hla
      · obtain ⟨hne, hst, hck, hpos⟩ := store_lookup_wf store hwf a.1 bs
          (by rw [hsl])
        exact ⟨bs, rfl, hne, hst, by omega, by omega, hck⟩
    · rw [if_neg hq] at hfa
      cases hfa

theorem diff_count (store : BlockStore) (sv : StateVector)
    (hwf : blockStoreWF store) (hsv : svWF sv) (hnz : ∀ e ∈ sv, e.2 ≠ 0) (c : Nat) :
    List.countP (fun e => e.1 == c) (diff_state_vectors (getStateVector store) sv)
      = if svGet sv c < svGet (getStateVector store) c then 1 else 0 := by
  have hln : ((getStateVector store).map Prod.fst).Nodup := by
    rw [getStateVector_keys]
    exact hwf.1
  have hf1 : ∀ (e r : Nat × Nat),
      (if svGet (getStateVector store) e.1 > e.2 then some (e.1, e.2) else none) = some r →
        r.1 = e.1 := by
    intro e r hr
    by_cases hq : svGet (getStateVector store) e.1 > e.2
    · rw [if_pos hq] at hr
      cases hr
      rfl
    · rw [if_neg hq] at hr
      cases hr
  have hf2 : ∀ (e r : Nat × Nat),
      (if svGet sv e.1 = 0 then some (e.1, 0) else none) = some r → r.1 = e.1 := by
    intro e r hr
    by_cases hq : svGet sv e.1 = 0
    · rw [if_pos hq] at hr
      cases hr
      rfl
    · rw [if_neg hq] at hr
      cases hr
  rw [diff_state_vectors, List.countP_append,
      countP_filterMap_keyed _ hf1 sv c,
      countP_filterMap_keyed _ hf2 (getStateVector store) c,
      countP_keyed_nodup sv _ c hsv,
      countP_keyed_nodup (getStateVector store) _ c hln]
  rcases hsvc : sv.lookup c with _ | rc <;>
    rcases hlc : (getStateVector store).lookup c with _ | L
  · rw [svGet_lookup_none sv c hsvc, svGet_lookup_none _ c hlc]
    simp
  · rw [svGet_lookup_none sv c hsvc, svGet_lookup_some _ c L hlc]
    have hLpos : 0 < L := by
      rw [getStateVector_lookup] at hlc
      rcases hsl : store.lookup c with _ | bs
      · rw [hsl] at hlc
        cases hlc
      · rw [hsl] at hlc
        obtain ⟨_, _, _, hpos⟩ := store_lookup_wf store hwf c bs hsl
        have : clockOf bs = L := by
          simpa using hlc
        omega
    simp [svGet_lookup_none sv c hsvc, hLpos]
  · have hrc : rc ≠ 0 := hnz (c, rc) (mem_of_lookup sv c rc hsvc)
    rw [svGet_lookup_some sv c rc hsvc, svGet_lookup_none _ c hlc]
    simp [svGet_lookup_none _ c hlc, svGet_lookup_some sv c rc hsvc, hrc]
  · have hrc : rc ≠ 0 := hnz (c, rc) (mem_of_lookup sv c rc hsvc)
    rw [svGet_lookup_some sv c rc hsvc, svGet_lookup_some _ c L hlc]
    by_cases hLr : rc < L
    · simp [svGet_lookup_some _ c L hlc, svGet_lookup_some sv c rc hsvc, hrc, hLr]
    · simp [svGet_lookup_some _ c L hlc, svGet_lookup_some sv c rc hsvc, hrc, hLr]

/-- C1 (amended): provided the remote state vector carries no explicit
zero-clock entry, the diff encoder emits, for each client `c` with
`L(c) > R(c)`, exactly one block section - with start clock `R(c)`, which is 0
for clients the remote has not seen - whose slices tile exactly `[R(c), L(c))`,
and emits no section for any client with `L(c) <= R(c)`. (With an explicit
`R(c) = 0` entry for a locally known client, `diff_state_vectors` pushes that
client twice and the full section is emitted twice - see the
counterexample.) -/
theorem c1_diff_encoding_per_client (store : BlockStore) (sv : StateVector)
    (hwf : blockStoreWF store) (hsv : svWF sv) (hnz : ∀ e ∈ sv, e.2 ≠ 0) :
    ∃ secs, write_blocks_from store sv = some secs ∧
      (∀ c, countClient secs c
        = if svGet sv c < svGet (getStateVector store) c then 1 else 0) ∧
      (∀ s ∈ secs, s.clock = svGet sv s.client ∧
        covers s.slices (svGet sv s.client) (svGet (getStateVector store) s.client)) := by
  have hperm : (stableSortBy (fun a b => b.1 ≤ a.1)
      (diff_state_vectors (getStateVector store) sv)).Perm
      (diff_state_vectors (getStateVector store) sv) := stableSortBy_perm _ _
  have hmem : ∀ e ∈ stableSortBy (fun a b => b.1 ≤ a.1)
      (diff_state_vectors (getStateVector store) sv),
      ∃ bs, store.lookup e.1 = some bs ∧ bs ≠ [] ∧ startsAt bs 0 = true ∧
        e.2 = svGet sv e.1 ∧ svGet sv e.1 < clockOf bs ∧
        clockOf bs = svGet (getStateVector store) e.1 :=
    fun e he => diff_mem_spec store sv hwf hsv e (hperm.subset he)
  have htot : ∀ e ∈ stableSortBy (fun a b => b.1 ≤ a.1)
      (diff_state_vectors (getStateVector store) sv),
      ∃ s, writeClientFrom store e = some s := by
    intro e he
    obtain ⟨bs, hlk, hne, hst, heq, hlt, _⟩ := hmem e he
    obtain ⟨sect, hw, _⟩ :=
      writeClientFrom_spec store e.1 e.2 bs hlk hst hne (by omega)
    exact ⟨sect, hw⟩
  obtain ⟨secs, hsecs, hf⟩ := sectionsFrom_total store _ htot
  refine ⟨secs, hsecs, ?_, ?_⟩
  · intro c
    have hclients : secs.map Sect.client
        = (stableSortBy (fun a b => b.1 ≤ a.1)
            (diff_state_vectors (getStateVector store) sv)).map Prod.fst :=
      forall₂_clients (writeClientFrom_client store) hf
    rw [countClient, hclients, (hperm.map Prod.fst).count_eq,
        List.count, List.countP_map, ← diff_count store sv hwf hsv hnz c]
    rfl
  · intro s hs
    obtain ⟨e, hed, hw⟩ := forall₂_mem_right hf s hs
    obtain ⟨c0, k0⟩ := e
    obtain ⟨bs, hlk, hne, hst, heq, hlt, hck⟩ := hmem (c0, k0) hed
    dsimp only at hlk heq hlt hck
    obtain ⟨sect, hw2, hcl, hclk, hcov⟩ :=
      writeClientFrom_spec store c0 k0 bs hlk hst hne (by omega)
    have hse : s = sect := by
      rw [hw] at hw2
      exact Option.some.inj hw2
    subst hse
    rw [hcl, hclk]
    refine ⟨heq, ?_⟩
    rw [← heq, ← hck]
    exact hcov

theorem filterMap_keys_sublist (f : Nat × Nat → Option (Nat × Nat))
    (hf : ∀ e r, f e = some r → r.1 = e.1) (l : List (Nat × Nat)) :
    ((l.filterMap f).map Prod.fst).Sublist (l.map Prod.fst) := by
  induction l with
  | nil => exact List.Sublist.refl _
  | cons e rest ih =>
    rcases hfe : f e with _ | r
    · rw [List.filterMap_cons_none hfe, List.map_cons]
      exact ih.cons _
    · rw [List.filterMap_cons_some hfe]
      simp only [List.map_cons, hf e r hfe]
      exact ih.cons₂ _

theorem key_pres_from₁ (store : BlockStore) :
    ∀ (e r : Nat × Nat),
      (if svGet (getStateVector store) e.1 > e.2 then some (e.1, e.2) else none) = some r →
        r.1 = e.1 := by
  intro e r hr
  by_cases hq : svGet (getStateVector store) e.1 > e.2
  · rw [if_pos hq] at hr
    cases hr
    rfl
  · rw [if_neg hq] at hr
    cases hr

theorem key_pres_from₂ (sv : StateVector) :
    ∀ (e r : Nat × Nat),
      (if svGet sv e.1 = 0 then some (e.1, 0) else none) = some r → r.1 = e.1 := by
  intro e r hr
  by_cases hq : svGet sv e.1 = 0
  · rw [if_pos hq] at hr
    cases hr
    rfl
  · rw [if_neg hq] at hr
    cases hr

theorem key_pres_to (store : BlockStore) :
    ∀ (e r : Nat × Nat),
      (if svContains (getStateVector store) e.1 = true
        then some (e.1, min e.2 (svGet (getStateVector store) e.1)) else none) = some r →
        r.1 = e.1 := by
  intro e r hr
  by_cases hq : svContains (getStateVector store) e.1 = true
  · rw [if_pos hq] at hr
    cases hr
    rfl
  · rw [if_neg hq] at hr
    cases hr

theorem diff_keys_nodup (store : BlockStore) (sv : StateVector)
    (hwf : blockStoreWF store) (hsv : svWF sv) (hnz : ∀ e ∈ sv, e.2 ≠ 0) :
    ((diff_state_vectors (getStateVector store) sv).map Prod.fst).Nodup := by
  have hln : ((getStateVector store).map Prod.fst).Nodup := by
    rw [getStateVector_keys]
    exact hwf.1
  rw [diff_state_vectors, List.map_append, List.nodup_append]
  refine ⟨(filterMap_keys_sublist _ (key_pres_from₁ store) sv).nodup hsv,
          (filterMap_keys_sublist _ (key_pres_from₂ sv) _).nodup hln, ?_⟩
  intro a ha1 ha2
  obtain ⟨e1, he1, he1a⟩ := List.mem_map.mp ha1
  obtain ⟨b1, hb1, hfb1⟩ := List.mem_filterMap.mp he1
  obtain ⟨e2, he2, he2a⟩ := List.mem_map.mp ha2
  obtain ⟨b2, hb2, hfb2⟩ := List.mem_filterMap.mp he2
  by_cases hq1 : svGet (getStateVector store) b1.1 > b1.2
  · rw [if_pos hq1] at hfb1
    cases hfb1
    by_cases hq2 : svGet sv b2.1 = 0
    · rw [if_pos hq2] at hfb2
      cases hfb2
      dsimp only at he1a he2a
      have hb12 : b2.1 = b1.1 := by omega
      have hsvb1 : svGet sv b1.1 = b1.2 := by
        obtain ⟨c1, k1⟩ := b1
        exact svGet_lookup_some sv c1 k1 (lookup_of_mem_nodup sv c1 k1 hsv hb1)
      have hnzb1 : b1.2 ≠ 0 := hnz b1 hb1
      rw [hb12, hsvb1] at hq2
      exact hnzb1 hq2
    · rw [if_neg hq2] at hfb2
      cases hfb2
  · rw [if_neg hq1] at hfb1
    cases hfb1

theorem write_blocks_to_total (store : BlockStore) (sv : StateVector)
    (hwf : blockStoreWF store)
    (hpos : ∀ e ∈ sv, svContains (getStateVector store) e.1 = true → e.2 ≠ 0) :
    ∃ secs, write_blocks_to store sv = some secs := by
  have htot : ∀ e ∈ stableSortBy (fun a b => b.1 ≤ a.1)
      (sv.filterMap (fun e =>
        if svContains (getStateVector store) e.1
          then some (e.1, min e.2 (svGet (getStateVector store) e.1)) else none)),
      ∃ s, writeClientTo store e = some s := by
    intro e he
    have hmem := (stableSortBy_perm (fun a b : Nat × Nat => b.1 ≤ a.1) _).subset he
    obtain ⟨a, ha, hfa⟩ := List.mem_filterMap.mp hmem
    by_cases hq : svContains (getStateVector store) a.1 = true
    · rw [if_pos hq] at hfa
      cases hfa
      rcases hsl : store.lookup a.1 with _ | bs
      · exfalso
        simp [svContains, getStateVector_lookup, hsl] at hq
      · obtain ⟨hne, hst, hck, hcp⟩ := store_lookup_wf store hwf a.1 bs (by rw [hsl])
        have ha2 : a.2 ≠ 0 := hpos a ha hq
        obtain ⟨sect, hw, _⟩ := writeClientTo_spec store a.1
            (min a.2 (svGet (getStateVector store) a.1)) bs (by rw [hsl]) hst
            (by omega) (by omega)
        exact ⟨sect, hw⟩
    · rw [if_neg hq] at hfa
      cases hfa
  obtain ⟨secs, hsecs, _⟩ := sectionsTo_total store _ htot
  exact ⟨secs, hsecs⟩

/-- C5 (amended): both block-writing encoders emit the per-client sections in
non-increasing client id order; the order is strictly descending for
`write_blocks_to`, whose per-client inputs are distinct snapshot entries, and
for `write_blocks_from` whenever the remote state vector carries no explicit
zero-clock entry. (Otherwise a duplicated client makes the order non-strict -
see the counterexample.) -/
theorem c5_sections_client_order (store : BlockStore) (sv : StateVector) :
    (∀ secs, write_blocks_from store sv = some secs →
      (secs.map Sect.client).Pairwise (fun a b => b ≤ a)) ∧
    (∀ secs, write_blocks_to store sv = some secs →
      (secs.map Sect.client).Pairwise (fun a b => b ≤ a)) ∧
    (svWF sv → ∀ secs, write_blocks_to store sv = some secs →
      (secs.map Sect.client).Pairwise (fun a b => b < a)) ∧
    (blockStoreWF store → svWF sv → (∀ e ∈ sv, e.2 ≠ 0) →
      ∀ secs, write_blocks_from store sv = some secs →
      (secs.map Sect.client).Pairwise (fun a b => b < a)) := by
  have htot : ∀ a b : Nat × Nat,
      (decide (b.1 ≤ a.1) = true) ∨ (decide (a.1 ≤ b.1) = true) := by
    intro a b
    rcases Nat.le_total b.1 a.1 with h | h <;> simp [h]
  have htrans : ∀ a b c : Nat × Nat, decide (b.1 ≤ a.1) = true →
      decide (c.1 ≤ b.1) = true → decide (c.1 ≤ a.1) = true := by
    intro a b c h1 h2
    simp only [decide_eq_true_eq] at h1 h2 ⊢
    omega
  have hfrom_ge : ∀ secs, write_blocks_from store sv = some secs →
      secs.map Sect.client = (stableSortBy (fun a b => b.1 ≤ a.1)
        (diff_state_vectors (getStateVector store) sv)).map Prod.fst ∧
      (secs.map Sect.client).Pairwise (fun a b => b ≤ a) := by
    intro secs h
    have hf := sectionsFrom_forall₂ store _ secs h
    have hclients := forall₂_clients (writeClientFrom_client store) hf
    refine ⟨hclients, ?_⟩
    rw [hclients]
    refine List.pairwise_map.mpr ?_
    exact (stableSortBy_pairwise _ htot htrans _).imp (fun hd => by
      simpa using hd)
  have hto_ge : ∀ secs, write_blocks_to store sv = some secs →
      secs.map Sect.client = (stableSortBy (fun a b => b.1 ≤ a.1)
        (sv.filterMap (fun e =>
          if svContains (getStateVector store) e.1
            then some (e.1, min e.2 (svGet (getStateVector store) e.1)) else none))).map
        Prod.fst ∧
      (secs.map Sect.client).Pairwise (fun a b => b ≤ a) := by
    intro secs h
    have hf := sectionsTo_forall₂ store _ secs h
    have hclients := forall₂_clients (writeClientTo_client store) hf
    refine ⟨hclients, ?_⟩
    rw [hclients]
    refine List.pairwise_map.mpr ?_
    exact (stableSortBy_pairwise _ htot htrans _).imp (fun hd => by
      simpa using hd)
  refine ⟨fun secs h => (hfrom_ge secs h).2, fun secs h => (hto_ge secs h).2, ?_, ?_⟩
  · intro hsv secs h
    obtain ⟨hclients, hge⟩ := hto_ge secs h
    have hnd : (secs.map Sect.client).Nodup := by
      rw [hclients]
      refine ((stableSortBy_perm _ _).map Prod.fst).nodup_iff.mpr ?_
      exact (filterMap_keys_sublist _ (key_pres_to store) sv).nodup hsv
    exact (hge.and hnd).imp (fun hx => by omega)
  · intro hwf hsv hnz secs h
    obtain ⟨hclients, hge⟩ := hfrom_ge secs h
    have hnd : (secs.map Sect.client).Nodup := by
      rw [hclients]
      refine ((stableSortBy_perm _ _).map Prod.fst).nodup_iff.mpr ?_
      exact diff_keys_nodup store sv hwf hsv hnz
    exact (hge.and hnd).imp (fun hx => by omega)
/-- Witness for C1 at a concrete store: one local client 1 with two operations,
remote state vector knowing only client 2 - one section for client 1 covering
`[0, 2)` is emitted. -/
theorem c1_diff_encoding_per_client_witness :
    ∃ secs, write_blocks_from [(1, [⟨0, 2⟩])] [(2, 1)] = some secs ∧
      (∀ c, countClient secs c
        = if svGet [(2, 1)] c < svGet (getStateVector [(1, [⟨0, 2⟩])]) c then 1 else 0) ∧
      (∀ s ∈ secs, s.clock = svGet [(2, 1)] s.client ∧
        covers s.slices (svGet [(2, 1)] s.client)
          (svGet (getStateVector [(1, [⟨0, 2⟩])]) s.client)) :=
  c1_diff_encoding_per_client [(1, [⟨0, 2⟩])] [(2, 1)] (by decide) (by decide) (by decide)

/-- C1 counterexample to the claim as stated: with a remote state vector that
explicitly carries `(1, 0)` while the local store knows client 1 with
`L(1) = 5 > 0 = R(1)`, both loops of `diff_state_vectors` push client 1, so the
full section `[0, 5)` is emitted twice - not "exactly once". -/
theorem c1_explicit_zero_entry_counterexample :
    write_blocks_from [(1, [⟨0, 5⟩])] [(1, 0)]
      = some [⟨1, 1, 0, [⟨0, 5⟩]⟩, ⟨1, 1, 0, [⟨0, 5⟩]⟩] ∧
    countClient [⟨1, 1, 0, [⟨0, 5⟩]⟩, ⟨1, 1, 0, [⟨0, 5⟩]⟩] 1 = 2 ∧
    svGet [(1, 0)] 1 = 0 ∧ svGet (getStateVector [(1, [⟨0, 5⟩])]) 1 = 5 := by
  decide

/-- Witness for C5 at a concrete store with clients 1 and 2: both encoders
order the emitted sections by descending client. -/
theorem c5_sections_client_order_witness :
    (∀ secs, write_blocks_from [(1, [⟨0, 2⟩]), (2, [⟨0, 1⟩])] [(2, 1)] = some secs →
      (secs.map Sect.client).Pairwise (fun a b => b ≤ a)) ∧
    (∀ secs, write_blocks_to [(1, [⟨0, 2⟩]), (2, [⟨0, 1⟩])] [(2, 1)] = some secs →
      (secs.map Sect.client).Pairwise (fun a b => b ≤ a)) ∧
    (svWF [(2, 1)] → ∀ secs,
      write_blocks_to [(1, [⟨0, 2⟩]), (2, [⟨0, 1⟩])] [(2, 1)] = some secs →
      (secs.map Sect.client).Pairwise (fun a b => b < a)) ∧
    (blockStoreWF [(1, [⟨0, 2⟩]), (2, [⟨0, 1⟩])] → svWF [(2, 1)] →
      (∀ e ∈ ([(2, 1)] : StateVector), e.2 ≠ 0) → ∀ secs,
      write_blocks_from [(1, [⟨0, 2⟩]), (2, [⟨0, 1⟩])] [(2, 1)] = some secs →
      (secs.map Sect.client).Pairwise (fun a b => b < a)) :=
  c5_sections_client_order [(1, [⟨0, 2⟩]), (2, [⟨0, 1⟩])] [(2, 1)]

/-- C5 counterexample to "strictly descending" as universally stated: the
explicit `(1, 0)` remote entry duplicates client 1, so the emitted client
sequence `[1, 1]` is not strictly descending. -/
theorem c5_duplicate_client_counterexample :
    write_blocks_from [(1, [⟨0, 5⟩])] [(1, 0)]
      = some [⟨1, 1, 0, [⟨0, 5⟩]⟩, ⟨1, 1, 0, [⟨0, 5⟩]⟩] ∧
    ¬ (([⟨1, 1, 0, [⟨0, 5⟩]⟩, ⟨1, 1, 0, [⟨0, 5⟩]⟩] : List Sect).map Sect.client).Pairwise
        (fun a b => b < a) := by
  refine ⟨by decide, ?_⟩
  intro h
  have h2 := (List.pairwise_cons.mp h).1
  simp at h2

/-- C3 (amended): `encode_state_from_snapshot` returns the `GCRequired` error
exactly when the store's `skip_gc` option is false, and in that case nothing is
written to the encoder; when `skip_gc` is true and the snapshot's state map has
no zero entry for a locally known client, it succeeds and writes the clipped
block sections followed by the snapshot's delete set. (A zero entry for a known
client makes the source's `clock - 1` underflow and panic instead - see the
counterexample.) -/
theorem c3_encode_state_from_snapshot_gc (s : Store) (snap : Snapshot) (enc : List Tok)
    (hwf : blockStoreWF s.blocks)
    (hpos : ∀ e ∈ snap.state_map,
      svContains (getStateVector s.blocks) e.1 = true → e.2 ≠ 0) :
    ((∃ out, encode_state_from_snapshot s snap enc = some (Except.error Error.gc, out)) ↔
      s.options.skip_gc = false) ∧
    (s.options.skip_gc = false →
      encode_state_from_snapshot s snap enc = some (Except.error Error.gc, enc)) ∧
    (s.options.skip_gc = true →
      ∃ secs, write_blocks_to s.blocks snap.state_map = some secs ∧
        encode_state_from_snapshot s snap enc
          = some (Except.ok (), enc ++ secs.map Tok.sect ++ [Tok.ds snap.delete_set])) := by
  by_cases hgc : s.options.skip_gc = true
  · obtain ⟨secs, hsecs⟩ := write_blocks_to_total s.blocks snap.state_map hwf hpos
    have henc : encode_state_from_snapshot s snap enc
        = some (Except.ok (), enc ++ secs.map Tok.sect ++ [Tok.ds snap.delete_set]) := by
      simp [encode_state_from_snapshot, hgc, hsecs]
    refine ⟨⟨?_, ?_⟩, ?_, fun _ => ⟨secs, hsecs, henc⟩⟩
    · rintro ⟨out, hout⟩
      rw [henc] at hout
      simp at hout
    · intro hfalse
      rw [hfalse] at hgc
      cases hgc
    · intro hfalse
      rw [hfalse] at hgc
      cases hgc
  · have hgf : s.options.skip_gc = false := by
      simpa using hgc
    have henc : encode_state_from_snapshot s snap enc
        = some (Except.error Error.gc, enc) := by
      simp [encode_state_from_snapshot, hgf]
    refine ⟨⟨fun _ => hgf, fun _ => ⟨enc, henc⟩⟩, fun _ => henc, ?_⟩
    intro htrue
    rw [htrue] at hgf
    cases hgf

/-- Witness for C3 at a concrete store with GC disabled (`skip_gc = true`):
the snapshot at clock 1 of client 1 encodes one clipped section and the
snapshot delete set. -/
theorem c3_encode_state_from_snapshot_gc_witness :
    ((∃ out, encode_state_from_snapshot ⟨⟨7, true⟩, [], [], [], 0, [(1, [⟨0, 2⟩])]⟩
        ⟨[(1, 1)], [(1, [(0, 1)])]⟩ [] = some (Except.error Error.gc, out)) ↔
      (⟨⟨7, true⟩, [], [], [], 0, [(1, [⟨0, 2⟩])]⟩ : Store).options.skip_gc = false) ∧
    ((⟨⟨7, true⟩, [], [], [], 0, [(1, [⟨0, 2⟩])]⟩ : Store).options.skip_gc = false →
      encode_state_from_snapshot ⟨⟨7, true⟩, [], [], [], 0, [(1, [⟨0, 2⟩])]⟩
        ⟨[(1, 1)], [(1, [(0, 1)])]⟩ [] = some (Except.error Error.gc, [])) ∧
    ((⟨⟨7, true⟩, [], [], [], 0, [(1, [⟨0, 2⟩])]⟩ : Store).options.skip_gc = true →
      ∃ secs, write_blocks_to [(1, [⟨0, 2⟩])] [(1, 1)] = some secs ∧
        encode_state_from_snapshot ⟨⟨7, true⟩, [], [], [], 0, [(1, [⟨0, 2⟩])]⟩
          ⟨[(1, 1)], [(1, [(0, 1)])]⟩ []
          = some (Except.ok (), [] ++ secs.map Tok.sect
              ++ [Tok.ds [(1, [(0, 1)])]])) :=
  c3_encode_state_from_snapshot_gc ⟨⟨7, true⟩, [], [], [], 0, [(1, [⟨0, 2⟩])]⟩
    ⟨[(1, 1)], [(1, [(0, 1)])]⟩ [] (by decide) (by decide)

/-- C3 counterexample to "when skip_gc is true it succeeds" as universally
stated: a snapshot whose state map explicitly holds clock 0 for a known client
drives the source through `clock - 1` at `clock = 0` - a u64 underflow whose
pivot lookup then fails its unwrap - so the encoder panics (`none`) instead of
succeeding. -/
theorem c3_zero_snapshot_entry_counterexample :
    (⟨⟨7, true⟩, [], [], [], 0, [(1, [⟨0, 5⟩])]⟩ : Store).options.skip_gc = true ∧
    encode_state_from_snapshot ⟨⟨7, true⟩, [], [], [], 0, [(1, [⟨0, 5⟩])]⟩
      ⟨[(1, 0)], []⟩ [] = none := by
  refine ⟨rfl, ?_⟩
  rfl

end Yrs
